import Mathlib

/-
Verification of the Ford-Johnson (merge-insert) sorter of the CPP09 PmergeMe
repository, shallowly embedded in Lean 4.

Modelling conventions.

Integers stored in the containers are C ints; the sorter only copies and
compares them (it performs no arithmetic on element values), so they are
modelled exactly as Int.  Sizes, loop counters and vector indices are size_t
values used far below 2 to the 64; they are modelled as Nat.  std vectors and
deques are modelled as List Int with positional get and set; out-of-range
accesses, which invoke undefined behaviour in C++ and never occur in the
executions the claims quantify over, are totalised with List.getD and the
no-op behaviour of List.set.

Each Lean definition mirrors one function (or one loop of a function) of
src/ex02/PmergeMe.cpp or src/ex02_basic/PmergeMe.cpp; the file ex02_basic
contains byte-identical copies of every helper except the pend insertion
loop, so the shared helpers are defined once.  The while loop of
generateJacobsthalInsertionOrder that generates Jacobsthal thresholds has no
structural bound, so it is embedded with a fuel argument; the lemma
jacobsthalNumsGo_fuel_irrelevant below proves the chosen fuel is never
exhausted, so the embedding agrees with the unbounded C++ loop.  The
membership test in the order list stands for the inserted marker array of the
C++ code: an index is marked inserted exactly when it has been pushed.
-/

namespace PmergeMe

/-- Reference Jacobsthal sequence, written as the recurrence that the spec
states: J 0 = 0, J 1 = 1, J (n+2) = J (n+1) + 2 * J n. -/
def jacRef : Nat → Nat
  | 0 => 0
  | 1 => 1
  | n + 2 => jacRef (n + 1) + 2 * jacRef n

/-- Body of the for loop of PmergeMe::jacobsthal, iterated k times on the
state (prev2, prev1, current). -/
def jacobsthalIter : Nat → Nat × Nat × Nat → Nat × Nat × Nat
  | 0, s => s
  | k + 1, (prev2, prev1, _) =>
      jacobsthalIter k (prev1, prev1 + 2 * prev2, prev1 + 2 * prev2)

/-- PmergeMe::jacobsthal: returns 0 for n = 0, 1 for n = 1, and otherwise
runs the accumulator loop for i = 2..n, that is n - 1 iterations starting
from prev2 = 0, prev1 = 1, current = 1, returning the final current. -/
def jacobsthal (n : Nat) : Nat :=
  if n = 0 then 0
  else if n = 1 then 1
  else (jacobsthalIter (n - 1) (0, 1, 1)).2.2

theorem jacobsthalIter_spec (k m : Nat) :
    jacobsthalIter k (jacRef m, jacRef (m + 1), jacRef (m + 1)) =
      (jacRef (m + k), jacRef (m + k + 1), jacRef (m + k + 1)) := by
  induction k generalizing m with
  | zero => simp [jacobsthalIter]
  | succ k ih =>
      have h2 : jacRef (m + 1) + 2 * jacRef m = jacRef (m + 2) := by
        simp [jacRef]
      calc jacobsthalIter (k + 1) (jacRef m, jacRef (m + 1), jacRef (m + 1))
          = jacobsthalIter k (jacRef (m + 1), jacRef (m + 2), jacRef (m + 2)) := by
            simp [jacobsthalIter, h2]
        _ = (jacRef (m + 1 + k), jacRef (m + 1 + k + 1), jacRef (m + 1 + k + 1)) := ih (m + 1)
        _ = (jacRef (m + (k + 1)), jacRef (m + (k + 1) + 1), jacRef (m + (k + 1) + 1)) := by
            ring_nf

theorem jacobsthal_eq_jacRef (n : Nat) : jacobsthal n = jacRef n := by
  match n with
  | 0 => rfl
  | 1 => rfl
  | k + 2 =>
      have h := jacobsthalIter_spec (k + 1) 0
      have h0 : jacRef 0 = 0 := rfl
      have h1 : jacRef (0 + 1) = 1 := rfl
      rw [h0, h1] at h
      show (jacobsthalIter (k + 2 - 1) (0, 1, 1)).2.2 = jacRef (k + 2)
      have e : k + 2 - 1 = k + 1 := by omega
      rw [e, h]
      show jacRef (0 + (k + 1) + 1) = jacRef (k + 2)
      congr 1
      omega

theorem jacRef_pos (n : Nat) : 1 ≤ jacRef (n + 1) := by
  induction n with
  | zero => simp [jacRef]
  | succ n ih =>
      show 1 ≤ jacRef (n + 2)
      have h : jacRef (n + 2) = jacRef (n + 1) + 2 * jacRef n := rfl
      omega

theorem jacRef_ge (k : Nat) : k + 3 ≤ jacRef (k + 3) := by
  induction k with
  | zero => decide
  | succ k ih =>
      show k + 4 ≤ jacRef (k + 4)
      have h1 : jacRef (k + 4) = jacRef (k + 3) + 2 * jacRef (k + 2) := rfl
      have h2 : 1 ≤ jacRef (k + 2) := by
        have := jacRef_pos (k + 1)
        have e : k + 1 + 1 = k + 2 := rfl
        rwa [e] at this
      omega

/-- Loop of generateJacobsthalInsertionOrder that collects Jacobsthal numbers
starting at index 3 until one reaches pendSize, then appends pendSize - 1.
The C++ loop is an unbounded while (true); this embedding carries fuel, shown
never to be exhausted by jacobsthalNumsGo_fuel_irrelevant. -/
def jacobsthalNumsGo (pendSize : Nat) : Nat → Nat → List Nat
  | 0, _ => []
  | fuel + 1, index =>
      let jNum := jacobsthal index
      if pendSize ≤ jNum then [pendSize - 1]
      else jNum :: jacobsthalNumsGo pendSize fuel (index + 1)

/-- Jacobsthal threshold list of generateJacobsthalInsertionOrder, starting
at index 3 as the C++ code does. -/
def jacobsthalNumsList (pendSize : Nat) : List Nat :=
  jacobsthalNumsGo pendSize (pendSize + 1) 3

theorem jacobsthalNumsGo_succ (pendSize fuel index : Nat) :
    jacobsthalNumsGo pendSize (fuel + 1) index =
      if pendSize ≤ jacobsthal index then [pendSize - 1]
      else jacobsthal index :: jacobsthalNumsGo pendSize fuel (index + 1) := rfl

theorem jacobsthalNumsGo_ext (pendSize : Nat) :
    ∀ (f index : Nat), 3 ≤ index → pendSize ≤ index + f →
      jacobsthalNumsGo pendSize (f + 1) index = jacobsthalNumsGo pendSize (f + 1 + 1) index := by
  intro f
  induction f with
  | zero =>
      intro index h3 hle
      have hj : pendSize ≤ jacobsthal index := by
        have hg := jacRef_ge (index - 3)
        have h : index - 3 + 3 = index := by omega
        rw [h] at hg
        rw [jacobsthal_eq_jacRef]
        omega
      rw [jacobsthalNumsGo_succ, jacobsthalNumsGo_succ, if_pos hj, if_pos hj]
  | succ f ih =>
      intro index h3 hle
      rw [jacobsthalNumsGo_succ pendSize (f + 1) index,
        jacobsthalNumsGo_succ pendSize (f + 1 + 1) index]
      by_cases hj : pendSize ≤ jacobsthal index
      · rw [if_pos hj, if_pos hj]
      · rw [if_neg hj, if_neg hj, ih (index + 1) (by omega) (by omega)]

/-- The fuel chosen for jacobsthalNumsList never runs out: adding any extra
fuel does not change the result, so the embedding computes exactly what the
unbounded C++ while loop computes. -/
theorem jacobsthalNumsGo_fuel_irrelevant (pendSize f : Nat) :
    jacobsthalNumsGo pendSize (pendSize + 1 + f) 3 = jacobsthalNumsList pendSize := by
  induction f with
  | zero => rfl
  | succ f ih =>
      have h := jacobsthalNumsGo_ext pendSize (pendSize + f) 3 (by omega) (by omega)
      have e1 : pendSize + f + 1 = pendSize + 1 + f := by omega
      rw [e1] at h
      have e2 : pendSize + 1 + f + 1 = pendSize + 1 + (f + 1) := by omega
      rw [e2] at h
      rw [← h, ih]

/-- Inner descending loop of generateJacobsthalInsertionOrder: j runs from
currentJacob down while j > prevJacob; an index is pushed when it is below
pendSize and not yet inserted.  Membership in the order list models the
inserted marker array. -/
def blockPush (pendSize prevJacob : Nat) : Nat → List Nat → List Nat
  | 0, order => order
  | j + 1, order =>
      if j + 1 ≤ prevJacob then order
      else
        blockPush pendSize prevJacob j
          (if j + 1 < pendSize ∧ (j + 1) ∉ order then order ++ [j + 1] else order)

/-- Outer loop of generateJacobsthalInsertionOrder over the collected
Jacobsthal thresholds, tracking prevJacob. -/
def blocksLoop (pendSize : Nat) : List Nat → Nat → List Nat → List Nat
  | [], _, order => order
  | c :: rest, prevJacob, order =>
      blocksLoop pendSize rest c (blockPush pendSize prevJacob c order)

/-- Final loop of generateJacobsthalInsertionOrder: every index in
[0, pendSize) not yet inserted is appended in ascending order. -/
def fillRemaining (pendSize : Nat) (order : List Nat) : List Nat :=
  (List.range pendSize).foldl (fun ord i => if i ∈ ord then ord else ord ++ [i]) order

/-- PmergeMe::generateJacobsthalInsertionOrder.  The caller passes a fresh
empty order vector, so the early return for pendSize = 0 yields the empty
list and otherwise generation starts from the cleared empty list. -/
def generateJacobsthalInsertionOrder (pendSize : Nat) : List Nat :=
  if pendSize = 0 then []
  else fillRemaining pendSize (blocksLoop pendSize (jacobsthalNumsList pendSize) 0 [])

theorem blockPush_inv (pendSize prevJacob : Nat) :
    ∀ (c : Nat) (order : List Nat), order.Nodup → (∀ x ∈ order, x < pendSize) →
      (blockPush pendSize prevJacob c order).Nodup ∧
        ∀ x ∈ blockPush pendSize prevJacob c order, x < pendSize := by
  intro c
  induction c with
  | zero => intro order h1 h2; exact ⟨h1, h2⟩
  | succ j ih =>
      intro order h1 h2
      by_cases hstop : j + 1 ≤ prevJacob
      · simp only [blockPush, if_pos hstop]
        exact ⟨h1, h2⟩
      · simp only [blockPush, if_neg hstop]
        by_cases hpush : j + 1 < pendSize ∧ (j + 1) ∉ order
        · rw [if_pos hpush]
          refine ih (order ++ [j + 1]) ?_ ?_
          · rw [List.nodup_append]
            refine ⟨h1, List.nodup_singleton _, ?_⟩
            intro a ha hb
            rw [List.mem_singleton] at hb
            subst hb
            exact hpush.2 ha
          · intro x hx
            rw [List.mem_append, List.mem_singleton] at hx
            rcases hx with hx | hx
            · exact h2 x hx
            · subst hx; exact hpush.1
        · rw [if_neg hpush]
          exact ih order h1 h2

theorem blocksLoop_inv (pendSize : Nat) :
    ∀ (nums : List Nat) (prevJacob : Nat) (order : List Nat),
      order.Nodup → (∀ x ∈ order, x < pendSize) →
      (blocksLoop pendSize nums prevJacob order).Nodup ∧
        ∀ x ∈ blocksLoop pendSize nums prevJacob order, x < pendSize := by
  intro nums
  induction nums with
  | nil => intro prevJacob order h1 h2; exact ⟨h1, h2⟩
  | cons c rest ih =>
      intro prevJacob order h1 h2
      have h := blockPush_inv pendSize prevJacob c order h1 h2
      exact ih c (blockPush pendSize prevJacob c order) h.1 h.2

theorem fillRemaining_inv (pendSize : Nat) :
    ∀ (l : List Nat) (order : List Nat), order.Nodup →
      ((l.foldl (fun ord i => if i ∈ ord then ord else ord ++ [i]) order).Nodup ∧
        ∀ x, x ∈ l.foldl (fun ord i => if i ∈ ord then ord else ord ++ [i]) order ↔
          x ∈ order ∨ x ∈ l) := by
  intro l
  induction l with
  | nil => intro order h1; simpa using h1
  | cons i rest ih =>
      intro order h1
      by_cases hi : i ∈ order
      · simp only [List.foldl_cons, if_pos hi]
        have h := ih order h1
        refine ⟨h.1, ?_⟩
        intro x
        rw [h.2 x, List.mem_cons]
        constructor
        · rintro (hx | hx)
          · exact Or.inl hx
          · exact Or.inr (Or.inr hx)
        · rintro (hx | hx | hx)
          · exact Or.inl hx
          · subst hx; exact Or.inl hi
          · exact Or.inr hx
      · simp only [List.foldl_cons, if_neg hi]
        have hnd : (order ++ [i]).Nodup := by
          rw [List.nodup_append]
          refine ⟨h1, List.nodup_singleton _, ?_⟩
          intro a ha hb
          rw [List.mem_singleton] at hb
          subst hb
          exact hi ha
        have h := ih (order ++ [i]) hnd
        refine ⟨h.1, ?_⟩
        intro x
        rw [h.2 x, List.mem_append, List.mem_singleton, List.mem_cons]
        tauto

theorem generateJacobsthalInsertionOrder_nodup (pendSize : Nat) :
    (generateJacobsthalInsertionOrder pendSize).Nodup := by
  by_cases h : pendSize = 0
  · simp [generateJacobsthalInsertionOrder, h]
  · have hb := blocksLoop_inv pendSize (jacobsthalNumsList pendSize) 0 [] (by simp) (by simp)
    have hf := fillRemaining_inv pendSize (List.range pendSize) _ hb.1
    simp only [generateJacobsthalInsertionOrder, if_neg h]
    exact hf.1

theorem generateJacobsthalInsertionOrder_mem (pendSize : Nat) (x : Nat) :
    x ∈ generateJacobsthalInsertionOrder pendSize ↔ x < pendSize := by
  by_cases h : pendSize = 0
  · subst h
    simp [generateJacobsthalInsertionOrder]
  · have hb := blocksLoop_inv pendSize (jacobsthalNumsList pendSize) 0 [] (by simp) (by simp)
    have hf := fillRemaining_inv pendSize (List.range pendSize) _ hb.1
    simp only [generateJacobsthalInsertionOrder, if_neg h, fillRemaining]
    rw [hf.2 x, List.mem_range]
    constructor
    · rintro (hx | hx)
      · exact hb.2 x hx
      · exact hx
    · intro hx
      exact Or.inr hx

theorem generateJacobsthalInsertionOrder_perm_range (pendSize : Nat) :
    (generateJacobsthalInsertionOrder pendSize).Perm (List.range pendSize) := by
  rw [List.perm_ext_iff_of_nodup (generateJacobsthalInsertionOrder_nodup pendSize)
    (List.nodup_range pendSize)]
  intro a
  rw [generateJacobsthalInsertionOrder_mem, List.mem_range]

theorem generateJacobsthalInsertionOrder_length (pendSize : Nat) :
    (generateJacobsthalInsertionOrder pendSize).length = pendSize := by
  have := (generateJacobsthalInsertionOrder_perm_range pendSize).length_eq
  simpa using this

/-
Generic embedding of the in-place insertion sort pattern that the C++ file
instantiates three times: insertionSortVector and insertionSortDeque on int
with comparison arr[j] > key, and the pair sorting loop on pairs with
comparison pairs[k].second > key.second.  The element type carries a key
extraction function f into Int; the comparison of the code is f a > f key.
-/

/-- Net effect of the inner while loop of the insertion sort pattern on the
prefix that precedes the key position: the maximal suffix whose elements all
exceed the key is shifted one slot right and the key lands in the hole.
This is a functional characterization used by the lemmas; the positional
loop itself is shiftLoop below. -/
def insertKeyG {α : Type} (f : α → Int) (key : α) : List α → List α
  | [] => [key]
  | a :: l =>
      if ∀ x ∈ a :: l, f key < f x then key :: a :: l
      else a :: insertKeyG f key l

/-- Inner while loop of the insertion sort pattern, positional form.  The
state jj stands for j - left + 1, so jj = 0 means the loop has run past the
left edge; while jj > 0 and arr[left+jj-1] > key the element is copied one
slot right; finally arr[left+jj] receives the key. -/
def shiftLoop {α : Type} [Inhabited α] (f : α → Int) (key : α) (left : Nat)
    (arr : List α) : Nat → List α
  | 0 => arr.set left key
  | jj + 1 =>
      let aj := arr.getD (left + jj) default
      if f key < f aj then shiftLoop f key left (arr.set (left + jj + 1) aj) jj
      else arr.set (left + jj + 1) key

/-- Outer for loop of the insertion sort pattern: done outer iterations have
completed, todo remain; iteration number done+1 reads the key at position
left + done + 1 and runs the inner loop on the prefix of length done + 1. -/
def isortLoop {α : Type} [Inhabited α] (f : α → Int) (left : Nat) :
    List α → Nat → Nat → List α
  | arr, _, 0 => arr
  | arr, done, todo + 1 =>
      let key := arr.getD (left + done + 1) default
      isortLoop f left (shiftLoop f key left arr (done + 1)) (done + 1) todo

/-- Pure functional insertion sort by the key f, the reference the positional
loops are proved equal to. -/
def insertionSortFun {α : Type} (f : α → Int) (l : List α) : List α :=
  l.foldl (fun acc x => insertKeyG f x acc) []

theorem insertKeyG_length {α : Type} (f : α → Int) (key : α) (l : List α) :
    (insertKeyG f key l).length = l.length + 1 := by
  induction l with
  | nil => rfl
  | cons a l ih =>
      by_cases h : ∀ x ∈ a :: l, f key < f x
      · rw [insertKeyG, if_pos h]
        simp
      · rw [insertKeyG, if_neg h]
        simp [ih]

theorem insertKeyG_perm {α : Type} (f : α → Int) (key : α) (l : List α) :
    (insertKeyG f key l).Perm (key :: l) := by
  induction l with
  | nil => exact List.Perm.refl _
  | cons a l ih =>
      by_cases h : ∀ x ∈ a :: l, f key < f x
      · rw [insertKeyG, if_pos h]
      · rw [insertKeyG, if_neg h]
        exact (ih.cons a).trans (List.Perm.swap key a l)

theorem insertKeyG_pairwise {α : Type} (f : α → Int) (key : α) (l : List α)
    (hl : l.Pairwise (fun a b => f a ≤ f b)) :
    (insertKeyG f key l).Pairwise (fun a b => f a ≤ f b) := by
  induction l with
  | nil => simp [insertKeyG]
  | cons a l ih =>
      rw [List.pairwise_cons] at hl
      by_cases h : ∀ x ∈ a :: l, f key < f x
      · rw [insertKeyG, if_pos h]
        rw [List.pairwise_cons]
        refine ⟨?_, List.pairwise_cons.2 hl⟩
        intro b hb
        exact le_of_lt (h b hb)
      · rw [insertKeyG, if_neg h]
        rw [List.pairwise_cons]
        push_neg at h
        obtain ⟨x0, hx0, hx0le⟩ := h
        have hale : f a ≤ f key := by
          rcases List.mem_cons.1 hx0 with he | hm
          · subst he; exact hx0le
          · exact le_trans (hl.1 x0 hm) hx0le
        refine ⟨?_, ih hl.2⟩
        intro b hb
        have hb2 : b ∈ key :: l := (insertKeyG_perm f key l).mem_iff.1 hb
        rcases List.mem_cons.1 hb2 with he | hm
        · subst he; exact hale
        · exact hl.1 b hm

theorem insertKeyG_append_gt {α : Type} (f : α → Int) (key a : α) (q : List α)
    (h : f key < f a) : insertKeyG f key (q ++ [a]) = insertKeyG f key q ++ [a] := by
  induction q with
  | nil =>
      have hc : ∀ x ∈ a :: ([] : List α), f key < f x := by
        intro x hx
        rcases List.mem_cons.1 hx with he | hm
        · subst he; exact h
        · simp at hm
      show insertKeyG f key [a] = [key] ++ [a]
      rw [insertKeyG, if_pos hc]
      rfl
  | cons b q ih =>
      by_cases hc : ∀ x ∈ b :: q, f key < f x
      · have hc2 : ∀ x ∈ b :: (q ++ [a]), f key < f x := by
          intro x hx
          rcases List.mem_cons.1 hx with he | hm
          · exact hc x (by simp [he])
          · rcases List.mem_append.1 hm with hq | ha
            · exact hc x (by simp [hq])
            · rw [List.mem_singleton] at ha; subst ha; exact h
        rw [List.cons_append, insertKeyG, if_pos hc2, insertKeyG, if_pos hc]
        simp
      · have hc2 : ¬ ∀ x ∈ b :: (q ++ [a]), f key < f x := by
          intro hall
          exact hc (fun x hx => hall x (by
            rcases List.mem_cons.1 hx with he | hm
            · simp [he]
            · simp [hm]))
        rw [List.cons_append, insertKeyG, if_neg hc2, insertKeyG, if_neg hc, ih]
        simp

theorem insertKeyG_append_le {α : Type} (f : α → Int) (key a : α) (q : List α)
    (h : ¬ f key < f a) : insertKeyG f key (q ++ [a]) = q ++ [a, key] := by
  induction q with
  | nil =>
      have hc : ¬ ∀ x ∈ a :: ([] : List α), f key < f x := by
        intro hall
        exact h (hall a (by simp))
      show insertKeyG f key [a] = [a, key]
      rw [insertKeyG, if_neg hc]
      rfl
  | cons b q ih =>
      have hc2 : ¬ ∀ x ∈ b :: (q ++ [a]), f key < f x := by
        intro hall
        exact h (hall a (by simp))
      rw [List.cons_append, insertKeyG, if_neg hc2, ih]
      simp

theorem listSet_len_append {α : Type} (A : List α) (c : α) (B : List α) (x : α) :
    (A ++ c :: B).set A.length x = A ++ x :: B := by
  induction A with
  | nil => rfl
  | cons a A ih => simp [List.set, ih]

theorem listGetD_len_append {α : Type} (A : List α) (c : α) (B : List α) (d : α) :
    (A ++ c :: B).getD A.length d = c := by
  induction A with
  | nil => rfl
  | cons a A ih => simpa using ih

theorem shiftLoop_succ {α : Type} [Inhabited α] (f : α → Int) (key : α)
    (left : Nat) (arr : List α) (jj : Nat) :
    shiftLoop f key left arr (jj + 1) =
      if f key < f (arr.getD (left + jj) default)
      then shiftLoop f key left (arr.set (left + jj + 1) (arr.getD (left + jj) default)) jj
      else arr.set (left + jj + 1) key := rfl

theorem shiftLoop_spec {α : Type} [Inhabited α] (f : α → Int) (key : α) :
    ∀ (p A B : List α) (c : α),
      shiftLoop f key A.length (A ++ p ++ c :: B) p.length =
        A ++ insertKeyG f key p ++ B := by
  intro p
  induction p using List.reverseRecOn with
  | nil =>
      intro A B c
      simp only [List.append_nil]
      show (A ++ c :: B).set A.length key = A ++ insertKeyG f key [] ++ B
      rw [listSet_len_append]
      show A ++ key :: B = A ++ [key] ++ B
      simp
  | append_singleton q a ih =>
      intro A B c
      have hlen : (q ++ [a]).length = q.length + 1 := by simp
      rw [hlen, shiftLoop_succ]
      have hget : (A ++ (q ++ [a]) ++ c :: B).getD (A.length + q.length) default = a := by
        have e : A ++ (q ++ [a]) ++ c :: B = (A ++ q) ++ a :: (c :: B) := by simp
        rw [e]
        have e2 : A.length + q.length = (A ++ q).length := by simp
        rw [e2, listGetD_len_append]
      rw [hget]
      have e1 : A ++ (q ++ [a]) ++ c :: B = (A ++ q ++ [a]) ++ c :: B := by simp
      have e2 : A.length + q.length + 1 = (A ++ q ++ [a]).length := by simp; omega
      by_cases hcmp : f key < f a
      · rw [if_pos hcmp, e1, e2, listSet_len_append]
        have e3 : (A ++ q ++ [a]) ++ a :: B = A ++ q ++ a :: a :: B := by simp
        rw [e3, ih A (a :: B) a, insertKeyG_append_gt f key a q hcmp]
        simp
      · rw [if_neg hcmp, e1, e2, listSet_len_append,
          insertKeyG_append_le f key a q hcmp]
        simp

theorem isortLoop_succ {α : Type} [Inhabited α] (f : α → Int) (left : Nat)
    (arr : List α) (done todo : Nat) :
    isortLoop f left arr done (todo + 1) =
      isortLoop f left
        (shiftLoop f (arr.getD (left + done + 1) default) left arr (done + 1))
        (done + 1) todo := rfl

theorem isortLoop_spec {α : Type} [Inhabited α] (f : α → Int) :
    ∀ (todo : Nat) (done : Nat) (s r A : List α), todo ≤ r.length →
      s.length = done + 1 →
      isortLoop f A.length (A ++ s ++ r) done todo =
        A ++ (r.take todo).foldl (fun acc x => insertKeyG f x acc) s ++ r.drop todo := by
  intro todo
  induction todo with
  | zero =>
      intro done s r A hle hs
      simp [isortLoop]
  | succ todo ih =>
      intro done s r A hle hs
      match r with
      | [] => simp at hle
      | x :: r2 =>
          have hkey : (A ++ s ++ x :: r2).getD (A.length + done + 1) default = x := by
            have e : A ++ s ++ x :: r2 = (A ++ s) ++ x :: r2 := by simp
            rw [e]
            have e2 : A.length + done + 1 = (A ++ s).length := by simp [hs]; omega
            rw [e2, listGetD_len_append]
          rw [isortLoop_succ, hkey]
          have hshift : shiftLoop f x A.length (A ++ s ++ x :: r2) (done + 1) =
              A ++ insertKeyG f x s ++ r2 := by
            have h := shiftLoop_spec f x s A r2 x
            rw [hs] at h
            exact h
          rw [hshift]
          have hrec := ih (done + 1) (insertKeyG f x s) r2 A (by simpa using hle)
            (by rw [insertKeyG_length, hs])
          rw [hrec]
          simp

theorem isortLoop_decomp {α : Type} [Inhabited α] (f : α → Int)
    (A M B : List α) (m : α) (M2 : List α) (hM : M = m :: M2) :
    isortLoop f A.length (A ++ M ++ B) 0 (M.length - 1) =
      A ++ insertionSortFun f M ++ B := by
  subst hM
  have e : A ++ (m :: M2) ++ B = A ++ [m] ++ (M2 ++ B) := by simp
  rw [e]
  have h := isortLoop_spec f M2.length 0 [m] (M2 ++ B) A
    (by simp) (by simp)
  have e2 : (m :: M2).length - 1 = M2.length := by simp
  rw [e2, h]
  have e3 : (M2 ++ B).take M2.length = M2 := List.take_left M2 B
  have e4 : (M2 ++ B).drop M2.length = B := List.drop_left M2 B
  rw [e3, e4]
  have e5 : insertionSortFun f (m :: M2) =
      M2.foldl (fun acc x => insertKeyG f x acc) [m] := by
    simp [insertionSortFun, insertKeyG]
  rw [e5]

theorem foldl_insertKeyG_perm {α : Type} (f : α → Int) :
    ∀ (l acc : List α), (l.foldl (fun a x => insertKeyG f x a) acc).Perm (l ++ acc) := by
  intro l
  induction l with
  | nil => simp
  | cons x l ih =>
      intro acc
      have h1 := ih (insertKeyG f x acc)
      have h2 : (l ++ insertKeyG f x acc).Perm (l ++ x :: acc) :=
        (insertKeyG_perm f x acc).append_left l
      have h3 : (l ++ x :: acc).Perm (x :: (l ++ acc)) := List.perm_middle
      simpa using h1.trans (h2.trans h3)

theorem foldl_insertKeyG_pairwise {α : Type} (f : α → Int) :
    ∀ (l acc : List α), acc.Pairwise (fun a b => f a ≤ f b) →
      (l.foldl (fun a x => insertKeyG f x a) acc).Pairwise (fun a b => f a ≤ f b) := by
  intro l
  induction l with
  | nil => intro acc h; simpa using h
  | cons x l ih =>
      intro acc h
      exact ih (insertKeyG f x acc) (insertKeyG_pairwise f x acc h)

theorem insertionSortFun_perm {α : Type} (f : α → Int) (l : List α) :
    (insertionSortFun f l).Perm l := by
  have := foldl_insertKeyG_perm f l []
  simpa [insertionSortFun] using this

theorem insertionSortFun_pairwise {α : Type} (f : α → Int) (l : List α) :
    (insertionSortFun f l).Pairwise (fun a b => f a ≤ f b) :=
  foldl_insertKeyG_pairwise f l [] (by simp)

/-- Pairing loop of mergeInsertSortVector: consecutive elements arr[i] and
arr[i+1] become one pair holding (smaller, larger); the comparison of the
code is arr[i] > arr[i+1].  A leftover odd element is not paired. -/
def mkPairs : List Int → List (Int × Int)
  | a :: b :: rest => (if b < a then (b, a) else (a, b)) :: mkPairs rest
  | _ => []

/-- Insertion sort of the pair vector by the larger member: the loop sorting
pairs with the comparison pairs[k].second > key.second, starting at j = 1,
which is the generic insertion sort pattern with left edge 0 over the whole
vector. -/
def pairSort (pairs : List (Int × Int)) : List (Int × Int) :=
  isortLoop Prod.snd 0 pairs 0 (pairs.length - 1)

/-- std lower_bound on a sorted range followed by insert at the returned
iterator: the value lands before the first element that is not smaller. -/
def lowerBoundInsert (x : Int) : List Int → List Int
  | [] => [x]
  | a :: l => if a < x then a :: lowerBoundInsert x l else x :: a :: l

/-
Named stages shared by mergeInsertSortVector, mergeInsertSortDeque and the
ex02_basic mergeInsertSortVector; the three C++ functions compute these
locals with identical statements.  Each stage is a function of the input
array standing for the local variable of the same name.
-/

/-- Local variable mainChain right after the build loop: the larger members
of the pairs sorted by larger member. -/
def mainChainOf (arr : List Int) : List Int :=
  (pairSort (mkPairs arr)).map Prod.snd

/-- Local variable pend: the smaller members of the pairs, aligned with the
main chain. -/
def pendOf (arr : List Int) : List Int :=
  (pairSort (mkPairs arr)).map Prod.fst

/-- Main chain after the unconditional insertion of pend[0] at the front,
guarded by pend being nonempty. -/
def mc1Of (arr : List Int) : List Int :=
  if (pendOf arr).isEmpty then mainChainOf arr
  else (pendOf arr).headD 0 :: mainChainOf arr

/-- Local variable insertionOrder: filled by the planner on pend.size() - 1
only when pend.size() > 1, otherwise left empty. -/
def orderOf (arr : List Int) : List Nat :=
  if 1 < (pendOf arr).length
  then generateJacobsthalInsertionOrder ((pendOf arr).length - 1) else []

/-- Local variable straggler: the unpaired last element when the length is
odd, and otherwise the sentinel value -1. -/
def stragglerOf (arr : List Int) : Int :=
  if arr.length % 2 = 1 then arr.getD (arr.length - 1) 0 else -1

namespace Ex02

/-- PmergeMe::insertionSortVector of src/ex02: in-place insertion sort of
the subrange [left, right]. -/
def insertionSortVector (arr : List Int) (left right : Int) : List Int :=
  isortLoop (fun x => x) left.toNat arr 0 (right - left).toNat

/-- PmergeMe::insertionSortDeque of src/ex02: the identical loop on the
deque container. -/
def insertionSortDeque (arr : List Int) (left right : Int) : List Int :=
  isortLoop (fun x => x) left.toNat arr 0 (right - left).toNat

/-- Main chain after the pend insertion loop of mergeInsertSortVector: each
order entry idx selects pend[idx + 1], inserted by lower_bound over the full
current chain. -/
def mainChainAfterPend (arr : List Int) : List Int :=
  (orderOf arr).foldl
    (fun mc idx => lowerBoundInsert ((pendOf arr).getD (idx + 1) 0) mc) (mc1Of arr)

/-- Else branch of mergeInsertSortVector, taken for more than 10 elements:
pair build, pend insertion, then the straggler insertion guarded by the
sentinel comparison straggler != -1. -/
def pairPath (arr : List Int) : List Int :=
  if stragglerOf arr ≠ -1
  then lowerBoundInsert (stragglerOf arr) (mainChainAfterPend arr)
  else mainChainAfterPend arr

/-- PmergeMe::mergeInsertSortVector of src/ex02. -/
def mergeInsertSortVector (arr : List Int) : List Int :=
  if arr.length ≤ 10 then insertionSortVector arr 0 ((arr.length : Int) - 1)
  else pairPath arr

/-- Main chain after the pend insertion loop of mergeInsertSortDeque; the
deque body repeats the vector body statement for statement, with push_front
performing the front insertion. -/
def mainChainAfterPendDeque (arr : List Int) : List Int :=
  (orderOf arr).foldl
    (fun mc idx => lowerBoundInsert ((pendOf arr).getD (idx + 1) 0) mc) (mc1Of arr)

/-- Else branch of mergeInsertSortDeque, mirroring pairPath. -/
def pairPathDeque (arr : List Int) : List Int :=
  if stragglerOf arr ≠ -1
  then lowerBoundInsert (stragglerOf arr) (mainChainAfterPendDeque arr)
  else mainChainAfterPendDeque arr

/-- PmergeMe::mergeInsertSortDeque of src/ex02. -/
def mergeInsertSortDeque (arr : List Int) : List Int :=
  if arr.length ≤ 10 then insertionSortDeque arr 0 ((arr.length : Int) - 1)
  else pairPathDeque arr

end Ex02

namespace Ex02Basic

/-- PmergeMe::insertionSortVector of src/ex02_basic, an identical copy of
the ex02 version. -/
def insertionSortVector (arr : List Int) (left right : Int) : List Int :=
  isortLoop (fun x => x) left.toNat arr 0 (right - left).toNat

/-- Main chain after the pend insertion loop of the ex02_basic
mergeInsertSortVector: identical to ex02 except that the remaining pend
elements are inserted in plain index order j = 1 .. pend.size() - 1. -/
def mainChainAfterPend (arr : List Int) : List Int :=
  (List.range' 1 ((pendOf arr).length - 1)).foldl
    (fun mc j => lowerBoundInsert ((pendOf arr).getD j 0) mc) (mc1Of arr)

/-- Else branch of the ex02_basic mergeInsertSortVector. -/
def pairPath (arr : List Int) : List Int :=
  if stragglerOf arr ≠ -1
  then lowerBoundInsert (stragglerOf arr) (mainChainAfterPend arr)
  else mainChainAfterPend arr

/-- PmergeMe::mergeInsertSortVector of src/ex02_basic. -/
def mergeInsertSortVector (arr : List Int) : List Int :=
  if arr.length ≤ 10 then insertionSortVector arr 0 ((arr.length : Int) - 1)
  else pairPath arr

end Ex02Basic

/-
Lemmas about the shared building blocks.
-/

theorem lowerBoundInsert_perm (x : Int) (l : List Int) :
    (lowerBoundInsert x l).Perm (x :: l) := by
  induction l with
  | nil => exact List.Perm.refl _
  | cons a l ih =>
      by_cases h : a < x
      · rw [lowerBoundInsert, if_pos h]
        exact (ih.cons a).trans (List.Perm.swap x a l)
      · rw [lowerBoundInsert, if_neg h]

theorem lowerBoundInsert_pairwise (x : Int) (l : List Int)
    (h : l.Pairwise (· ≤ ·)) : (lowerBoundInsert x l).Pairwise (· ≤ ·) := by
  induction l with
  | nil => simp [lowerBoundInsert]
  | cons a l ih =>
      rw [List.pairwise_cons] at h
      by_cases hc : a < x
      · rw [lowerBoundInsert, if_pos hc, List.pairwise_cons]
        constructor
        · intro b hb
          have hb2 : b ∈ x :: l := (lowerBoundInsert_perm x l).mem_iff.1 hb
          rcases List.mem_cons.1 hb2 with he | hm
          · subst he; exact le_of_lt hc
          · exact h.1 b hm
        · exact ih h.2
      · rw [lowerBoundInsert, if_neg hc, List.pairwise_cons]
        constructor
        · intro b hb
          rcases List.mem_cons.1 hb with he | hm
          · subst he; exact le_of_not_lt hc
          · exact le_trans (le_of_not_lt hc) (h.1 b hm)
        · exact List.pairwise_cons.2 h

theorem foldl_lbi_perm {β : Type} (g : β → Int) :
    ∀ (vs : List β) (mc : List Int),
      (vs.foldl (fun m v => lowerBoundInsert (g v) m) mc).Perm (vs.map g ++ mc) := by
  intro vs
  induction vs with
  | nil => intro mc; simp
  | cons v vs ih =>
      intro mc
      have h1 := ih (lowerBoundInsert (g v) mc)
      have h2 : (vs.map g ++ lowerBoundInsert (g v) mc).Perm (vs.map g ++ g v :: mc) :=
        (lowerBoundInsert_perm (g v) mc).append_left (vs.map g)
      have h3 : (vs.map g ++ g v :: mc).Perm (g v :: (vs.map g ++ mc)) := List.perm_middle
      simpa using h1.trans (h2.trans h3)

theorem foldl_lbi_pairwise {β : Type} (g : β → Int) :
    ∀ (vs : List β) (mc : List Int), mc.Pairwise (· ≤ ·) →
      (vs.foldl (fun m v => lowerBoundInsert (g v) m) mc).Pairwise (· ≤ ·) := by
  intro vs
  induction vs with
  | nil => intro mc h; simpa using h
  | cons v vs ih =>
      intro mc h
      exact ih (lowerBoundInsert (g v) mc) (lowerBoundInsert_pairwise (g v) mc h)

theorem sortedPermEq (l1 l2 : List Int) (hp : l1.Perm l2)
    (h1 : l1.Pairwise (· ≤ ·)) (h2 : l2.Pairwise (· ≤ ·)) : l1 = l2 :=
  List.eq_of_perm_of_sorted hp h1 h2

/-- Multiset content of a pair list, in pair order: low then high for each
pair.  Proof-side device relating the pair vector to the input array. -/
def flattenPairs : List (Int × Int) → List Int
  | [] => []
  | p :: ps => p.1 :: p.2 :: flattenPairs ps

theorem flattenPairs_perm_maps (l : List (Int × Int)) :
    (flattenPairs l).Perm (l.map Prod.fst ++ l.map Prod.snd) := by
  induction l with
  | nil => simp [flattenPairs]
  | cons p ps ih =>
      have h1 : (flattenPairs (p :: ps)) = p.1 :: p.2 :: flattenPairs ps := rfl
      rw [h1]
      have h2 : (p.1 :: p.2 :: flattenPairs ps).Perm
          (p.1 :: p.2 :: (ps.map Prod.fst ++ ps.map Prod.snd)) := (ih.cons _).cons _
      refine h2.trans ?_
      have h3 : (p.2 :: (ps.map Prod.fst ++ ps.map Prod.snd)).Perm
          (ps.map Prod.fst ++ p.2 :: ps.map Prod.snd) := List.perm_middle.symm
      have h4 := h3.cons p.1
      refine h4.trans ?_
      simp

theorem flattenPairs_length (l : List (Int × Int)) :
    (flattenPairs l).length = 2 * l.length := by
  induction l with
  | nil => rfl
  | cons p ps ih =>
      have h1 : (flattenPairs (p :: ps)) = p.1 :: p.2 :: flattenPairs ps := rfl
      rw [h1]
      simp only [List.length_cons, ih]
      omega

theorem flattenPairs_perm_of_perm {l1 l2 : List (Int × Int)} (h : l1.Perm l2) :
    (flattenPairs l1).Perm (flattenPairs l2) :=
  (flattenPairs_perm_maps l1).trans
    (((h.map Prod.fst).append (h.map Prod.snd)).trans (flattenPairs_perm_maps l2).symm)

/-- The element left unpaired by the pairing loop: the last one when the
length is odd, nothing when it is even.  Proof-side device. -/
def leftoverOf : List Int → List Int
  | [] => []
  | [a] => [a]
  | _ :: _ :: rest => leftoverOf rest

theorem mkPairs_flatten (l : List Int) :
    l.Perm (flattenPairs (mkPairs l) ++ leftoverOf l) := by
  match l with
  | [] => simp [mkPairs, flattenPairs, leftoverOf]
  | [a] => simp [mkPairs, flattenPairs, leftoverOf]
  | a :: b :: rest =>
      have ih := mkPairs_flatten rest
      have e1 : mkPairs (a :: b :: rest) =
          (if b < a then (b, a) else (a, b)) :: mkPairs rest := rfl
      have e2 : leftoverOf (a :: b :: rest) = leftoverOf rest := rfl
      rw [e1, e2]
      by_cases hba : b < a
      · rw [if_pos hba]
        have e3 : flattenPairs ((b, a) :: mkPairs rest) =
            b :: a :: flattenPairs (mkPairs rest) := rfl
        rw [e3]
        have h3 : (a :: b :: rest).Perm
            (a :: b :: (flattenPairs (mkPairs rest) ++ leftoverOf rest)) := (ih.cons b).cons a
        refine h3.trans ?_
        exact List.Perm.swap b a _
      · rw [if_neg hba]
        have e3 : flattenPairs ((a, b) :: mkPairs rest) =
            a :: b :: flattenPairs (mkPairs rest) := rfl
        rw [e3]
        exact (ih.cons b).cons a

theorem leftoverOf_even (l : List Int) (h : l.length % 2 = 0) : leftoverOf l = [] := by
  match l with
  | [] => rfl
  | [a] => simp at h
  | a :: b :: rest =>
      have hr : rest.length % 2 = 0 := by simp at h; omega
      exact leftoverOf_even rest hr

theorem leftoverOf_odd (l : List Int) (h : l.length % 2 = 1) :
    leftoverOf l = [l.getD (l.length - 1) 0] := by
  match l with
  | [] => simp at h
  | [a] => rfl
  | a :: b :: rest =>
      have hr : rest.length % 2 = 1 := by simp at h; omega
      have ih := leftoverOf_odd rest hr
      have e2 : leftoverOf (a :: b :: rest) = leftoverOf rest := rfl
      rw [e2, ih]
      obtain ⟨m, hm⟩ : ∃ m, rest.length = m + 1 := ⟨rest.length - 1, by omega⟩
      have e3 : (a :: b :: rest).length - 1 = m + 2 := by simp [hm]
      rw [e3]
      have e4 : (a :: b :: rest).getD (m + 2) 0 = rest.getD m 0 := rfl
      rw [e4]
      rw [hm]
      simp

theorem mkPairs_length (l : List Int) : (mkPairs l).length = l.length / 2 := by
  match l with
  | [] => rfl
  | [a] => simp [mkPairs]
  | a :: b :: rest =>
      have ih := mkPairs_length rest
      have e1 : mkPairs (a :: b :: rest) =
          (if b < a then (b, a) else (a, b)) :: mkPairs rest := rfl
      rw [e1]
      simp only [List.length_cons, ih]
      omega

theorem mkPairs_lowle (l : List Int) : ∀ p ∈ mkPairs l, p.1 ≤ p.2 := by
  match l with
  | [] => intro p hp; simp [mkPairs] at hp
  | [a] => intro p hp; simp [mkPairs] at hp
  | a :: b :: rest =>
      intro p hp
      have e1 : mkPairs (a :: b :: rest) =
          (if b < a then (b, a) else (a, b)) :: mkPairs rest := rfl
      rw [e1] at hp
      rcases List.mem_cons.1 hp with he | hm
      · by_cases hba : b < a
        · rw [if_pos hba] at he; subst he; exact le_of_lt hba
        · rw [if_neg hba] at he; subst he; exact le_of_not_lt hba
      · exact mkPairs_lowle rest p hm

theorem pairSort_eq (pairs : List (Int × Int)) :
    pairSort pairs = insertionSortFun Prod.snd pairs := by
  match pairs with
  | [] => rfl
  | m :: M2 =>
      have h := isortLoop_decomp Prod.snd [] (m :: M2) [] m M2 rfl
      simpa [pairSort, insertionSortFun] using h

theorem pairSort_perm (pairs : List (Int × Int)) : (pairSort pairs).Perm pairs := by
  rw [pairSort_eq]
  exact insertionSortFun_perm Prod.snd pairs

theorem pairSort_pairwise (pairs : List (Int × Int)) :
    (pairSort pairs).Pairwise (fun p q => p.2 ≤ q.2) := by
  rw [pairSort_eq]
  exact insertionSortFun_pairwise Prod.snd pairs

theorem map_getD_range (t : List Int) :
    (List.range t.length).map (fun i => t.getD i 0) = t := by
  induction t with
  | nil => rfl
  | cons a t ih =>
      have e1 : (a :: t).length = t.length + 1 := rfl
      rw [e1, List.range_succ_eq_map, List.map_cons, List.map_map]
      have e3 : ((fun i => (a :: t).getD i 0) ∘ Nat.succ) = fun i => t.getD i 0 := by
        funext i
        show (a :: t).getD (i + 1) 0 = t.getD i 0
        rw [List.getD_cons_succ]
      rw [e3, ih]
      simp

theorem map_getD_succ_range (x : Int) (t : List Int) :
    (List.range t.length).map (fun i => (x :: t).getD (i + 1) 0) = t := by
  have e : (fun i => (x :: t).getD (i + 1) 0) = fun i => t.getD i 0 := by
    funext i
    rw [List.getD_cons_succ]
  rw [e, map_getD_range]

theorem map_getD_one_add_range (x : Int) (t : List Int) :
    (List.range t.length).map (fun i => (x :: t).getD (1 + i) 0) = t := by
  have e : (fun i => (x :: t).getD (1 + i) 0) = fun i => t.getD i 0 := by
    funext i
    rw [Nat.add_comm, List.getD_cons_succ]
  rw [e, map_getD_range]

/-
Lemmas about the stages of the merge-insert path.
-/

theorem mainChainOf_pairwise (arr : List Int) :
    (mainChainOf arr).Pairwise (· ≤ ·) := by
  unfold mainChainOf
  rw [List.pairwise_map]
  exact pairSort_pairwise (mkPairs arr)

theorem pairSort_lowle (arr : List Int) :
    ∀ p ∈ pairSort (mkPairs arr), p.1 ≤ p.2 := fun p hp =>
  mkPairs_lowle arr p ((pairSort_perm (mkPairs arr)).mem_iff.1 hp)

theorem pendOf_nil_of_isEmpty (arr : List Int) (h : (pendOf arr).isEmpty) :
    pendOf arr = [] := by
  cases he : pendOf arr with
  | nil => rfl
  | cons p0 rest => rw [he] at h; simp at h

theorem mc1Of_pairwise (arr : List Int) : (mc1Of arr).Pairwise (· ≤ ·) := by
  unfold mc1Of
  by_cases h : (pendOf arr).isEmpty
  · rw [if_pos h]
    exact mainChainOf_pairwise arr
  · rw [if_neg h]
    have hne : pairSort (mkPairs arr) ≠ [] := by
      intro hnil
      apply h
      simp [pendOf, hnil]
    obtain ⟨q, qs, hq⟩ := List.exists_cons_of_ne_nil hne
    have hpend : pendOf arr = q.1 :: qs.map Prod.fst := by
      rw [pendOf, hq]
      simp
    have hmain : mainChainOf arr = q.2 :: qs.map Prod.snd := by
      rw [mainChainOf, hq]
      simp
    have hq12 : q.1 ≤ q.2 := pairSort_lowle arr q (by rw [hq]; exact List.mem_cons_self q qs)
    have hmcp := mainChainOf_pairwise arr
    rw [hmain] at hmcp
    rw [List.pairwise_cons] at hmcp
    rw [hpend, hmain]
    simp only [List.headD_cons]
    rw [List.pairwise_cons]
    constructor
    · intro y hy
      rcases List.mem_cons.1 hy with he | hm
      · subst he; exact hq12
      · exact le_trans hq12 (hmcp.1 y hm)
    · rw [List.pairwise_cons]
      exact hmcp

theorem orderValues_perm (arr : List Int) :
    (((orderOf arr).map (fun idx => (pendOf arr).getD (idx + 1) 0))).Perm
      ((pendOf arr).drop 1) := by
  unfold orderOf
  by_cases h : 1 < (pendOf arr).length
  · rw [if_pos h]
    have hne : pendOf arr ≠ [] := by
      intro hn
      rw [hn] at h
      simp at h
    obtain ⟨p0, rest, hp⟩ := List.exists_cons_of_ne_nil hne
    have hperm := (generateJacobsthalInsertionOrder_perm_range
      ((pendOf arr).length - 1)).map (fun idx => (pendOf arr).getD (idx + 1) 0)
    refine hperm.trans ?_
    have e : (List.range ((pendOf arr).length - 1)).map
        (fun idx => (pendOf arr).getD (idx + 1) 0) = (pendOf arr).drop 1 := by
      rw [hp]
      simp only [List.length_cons, Nat.add_sub_cancel, List.drop_succ_cons, List.drop_zero]
      exact map_getD_succ_range p0 rest
    rw [e]
  · rw [if_neg h]
    have hd : (pendOf arr).drop 1 = [] := by
      apply List.drop_eq_nil_of_le
      omega
    rw [hd]
    simp

theorem values_mc1_perm (arr : List Int) :
    ((pendOf arr).drop 1 ++ mc1Of arr).Perm (pendOf arr ++ mainChainOf arr) := by
  by_cases h : (pendOf arr).isEmpty
  · have hp := pendOf_nil_of_isEmpty arr h
    rw [mc1Of, if_pos h, hp]
    simp
  · have hne : pendOf arr ≠ [] := by
      intro hn
      rw [hn] at h
      simp at h
    obtain ⟨p0, rest, hp⟩ := List.exists_cons_of_ne_nil hne
    rw [mc1Of, if_neg h, hp]
    simp only [List.headD_cons, List.drop_succ_cons, List.drop_zero]
    refine List.perm_middle.trans ?_
    exact List.Perm.refl _

theorem mainChainAfterPend_pairwise (arr : List Int) :
    (Ex02.mainChainAfterPend arr).Pairwise (· ≤ ·) :=
  foldl_lbi_pairwise (fun idx => (pendOf arr).getD (idx + 1) 0) (orderOf arr)
    (mc1Of arr) (mc1Of_pairwise arr)

theorem mainAndPend_perm_flatten (arr : List Int) :
    (pendOf arr ++ mainChainOf arr).Perm (flattenPairs (mkPairs arr)) := by
  have h1 : pendOf arr ++ mainChainOf arr =
      (pairSort (mkPairs arr)).map Prod.fst ++ (pairSort (mkPairs arr)).map Prod.snd := rfl
  rw [h1]
  exact ((flattenPairs_perm_maps (pairSort (mkPairs arr))).symm).trans
    (flattenPairs_perm_of_perm (pairSort_perm (mkPairs arr)))

theorem mainChainAfterPend_perm (arr : List Int) :
    (Ex02.mainChainAfterPend arr).Perm (flattenPairs (mkPairs arr)) := by
  have h1 := foldl_lbi_perm (fun idx => (pendOf arr).getD (idx + 1) 0)
    (orderOf arr) (mc1Of arr)
  refine h1.trans ?_
  refine (((orderValues_perm arr).append_right (mc1Of arr)).trans
    (values_mc1_perm arr)).trans ?_
  exact mainAndPend_perm_flatten arr

theorem pairPath_pairwise (arr : List Int) :
    (Ex02.pairPath arr).Pairwise (· ≤ ·) := by
  unfold Ex02.pairPath
  by_cases h : stragglerOf arr ≠ -1
  · rw [if_pos h]
    exact lowerBoundInsert_pairwise _ _ (mainChainAfterPend_pairwise arr)
  · rw [if_neg h]
    exact mainChainAfterPend_pairwise arr

theorem pairPath_perm (arr : List Int)
    (hcond : arr.length % 2 = 1 → arr.getD (arr.length - 1) 0 ≠ -1) :
    (Ex02.pairPath arr).Perm arr := by
  unfold Ex02.pairPath
  by_cases hodd : arr.length % 2 = 1
  · have hstrag : stragglerOf arr = arr.getD (arr.length - 1) 0 := by
      rw [stragglerOf, if_pos hodd]
    have hne : stragglerOf arr ≠ -1 := by
      rw [hstrag]
      exact hcond hodd
    rw [if_pos hne, hstrag]
    refine (lowerBoundInsert_perm _ _).trans ?_
    refine (((mainChainAfterPend_perm arr)).cons _).trans ?_
    have hleft := leftoverOf_odd arr hodd
    have harr := (mkPairs_flatten arr).symm
    rw [hleft] at harr
    have hmid : ((arr.getD (arr.length - 1) 0) :: flattenPairs (mkPairs arr)).Perm
        (flattenPairs (mkPairs arr) ++ [arr.getD (arr.length - 1) 0]) := by
      have hm := @List.perm_middle _ (arr.getD (arr.length - 1) 0)
        (flattenPairs (mkPairs arr)) []
      simpa using hm.symm
    exact hmid.trans harr
  · have hstrag : stragglerOf arr = -1 := by
      rw [stragglerOf, if_neg hodd]
    rw [if_neg (by simp [hstrag])]
    have heven : arr.length % 2 = 0 := by omega
    have hleft := leftoverOf_even arr heven
    have harr := (mkPairs_flatten arr).symm
    rw [hleft] at harr
    have h2 : (flattenPairs (mkPairs arr)).Perm arr := by simpa using harr
    exact (mainChainAfterPend_perm arr).trans h2

theorem pairPath_length_drop (arr : List Int) (hodd : arr.length % 2 = 1)
    (hlast : arr.getD (arr.length - 1) 0 = -1) :
    (Ex02.pairPath arr).length = arr.length - 1 := by
  unfold Ex02.pairPath
  have hstrag : stragglerOf arr = -1 := by
    rw [stragglerOf, if_pos hodd, hlast]
  rw [if_neg (by simp [hstrag])]
  have h1 := (mainChainAfterPend_perm arr).length_eq
  rw [h1, flattenPairs_length, mkPairs_length]
  omega

theorem insertionSortVector_eq_fun (arr : List Int) :
    Ex02.insertionSortVector arr 0 ((arr.length : Int) - 1) =
      insertionSortFun (fun x => x) arr := by
  match arr with
  | [] => rfl
  | m :: M2 =>
      unfold Ex02.insertionSortVector
      have e0 : ((0 : Int)).toNat = 0 := rfl
      have e1 : ((((m :: M2).length : Nat) : Int) - 1 - 0).toNat = (m :: M2).length - 1 := by
        omega
      rw [e0, e1]
      have h := isortLoop_decomp (fun x : Int => x) [] (m :: M2) [] m M2 rfl
      simpa using h

theorem sortVector_sorted (arr : List Int) :
    (Ex02.mergeInsertSortVector arr).Pairwise (· ≤ ·) := by
  unfold Ex02.mergeInsertSortVector
  by_cases h : arr.length ≤ 10
  · rw [if_pos h, insertionSortVector_eq_fun]
    exact insertionSortFun_pairwise (fun x => x) arr
  · rw [if_neg h]
    exact pairPath_pairwise arr

theorem sortVector_perm (arr : List Int)
    (hcond : 10 < arr.length → arr.length % 2 = 1 → arr.getD (arr.length - 1) 0 ≠ -1) :
    (Ex02.mergeInsertSortVector arr).Perm arr := by
  unfold Ex02.mergeInsertSortVector
  by_cases h : arr.length ≤ 10
  · rw [if_pos h, insertionSortVector_eq_fun]
    exact insertionSortFun_perm (fun x => x) arr
  · rw [if_neg h]
    exact pairPath_perm arr (hcond (by omega))

/-
Lemmas for the ex02_basic variant and the container comparison.
-/

theorem basic_values_eq (arr : List Int) :
    (List.range' 1 ((pendOf arr).length - 1)).map (fun j => (pendOf arr).getD j 0) =
      (pendOf arr).drop 1 := by
  cases hp : pendOf arr with
  | nil => simp
  | cons p0 rest =>
      rw [List.range'_eq_map_range, List.map_map]
      simp only [List.length_cons, Nat.add_sub_cancel, List.drop_succ_cons, List.drop_zero]
      exact map_getD_one_add_range p0 rest

theorem basic_mainChainAfterPend_pairwise (arr : List Int) :
    (Ex02Basic.mainChainAfterPend arr).Pairwise (· ≤ ·) :=
  foldl_lbi_pairwise (fun j => (pendOf arr).getD j 0)
    (List.range' 1 ((pendOf arr).length - 1)) (mc1Of arr) (mc1Of_pairwise arr)

theorem basic_mainChainAfterPend_perm (arr : List Int) :
    (Ex02Basic.mainChainAfterPend arr).Perm (flattenPairs (mkPairs arr)) := by
  have h1 := foldl_lbi_perm (fun j => (pendOf arr).getD j 0)
    (List.range' 1 ((pendOf arr).length - 1)) (mc1Of arr)
  rw [basic_values_eq arr] at h1
  exact h1.trans ((values_mc1_perm arr).trans (mainAndPend_perm_flatten arr))

theorem basic_mc_eq (arr : List Int) :
    Ex02Basic.mainChainAfterPend arr = Ex02.mainChainAfterPend arr :=
  sortedPermEq _ _
    ((basic_mainChainAfterPend_perm arr).trans (mainChainAfterPend_perm arr).symm)
    (basic_mainChainAfterPend_pairwise arr) (mainChainAfterPend_pairwise arr)

theorem basic_eq_ex02 (arr : List Int) :
    Ex02Basic.mergeInsertSortVector arr = Ex02.mergeInsertSortVector arr := by
  unfold Ex02Basic.mergeInsertSortVector Ex02.mergeInsertSortVector
  by_cases h : arr.length ≤ 10
  · rw [if_pos h, if_pos h]
    rfl
  · rw [if_neg h, if_neg h]
    unfold Ex02Basic.pairPath Ex02.pairPath
    rw [basic_mc_eq arr]

/-
Lemmas for idempotence.
-/

theorem getD_last_mem (l : List Int) (h : 0 < l.length) :
    l.getD (l.length - 1) 0 ∈ l := by
  have hlt : l.length - 1 < l.length := by omega
  rw [List.getD_eq_getElem l 0 hlt]
  exact List.getElem_mem hlt

theorem noNegOne_cond (l : List Int) (hl : (-1 : Int) ∉ l) :
    10 < l.length → l.length % 2 = 1 → l.getD (l.length - 1) 0 ≠ -1 := by
  intro h10 _
  intro he
  apply hl
  rw [← he]
  exact getD_last_mem l (by omega)

/-
Lemmas for the frame property of insertionSortVector.
-/

theorem insortVec_decomp_full (A M B : List Int) (m : Int) (M2 : List Int)
    (hM : M = m :: M2) (left right : Int) (hleft : left.toNat = A.length)
    (hright : (right - left).toNat = M.length - 1) :
    Ex02.insertionSortVector (A ++ M ++ B) left right =
      A ++ insertionSortFun (fun x => x) M ++ B := by
  unfold Ex02.insertionSortVector
  rw [hleft, hright]
  exact isortLoop_decomp (fun x : Int => x) A M B m M2 hM

theorem listGetD_append_lt {α : Type} (A B : List α) (p : Nat) (d : α)
    (h : p < A.length) : (A ++ B).getD p d = A.getD p d := by
  induction A generalizing p with
  | nil => simp at h
  | cons a A ih =>
      cases p with
      | zero => rfl
      | succ p =>
          simp only [List.cons_append, List.getD_cons_succ]
          exact ih p (by simpa using h)

theorem listGetD_append_ge {α : Type} (A B : List α) (p : Nat) (d : α)
    (h : A.length ≤ p) : (A ++ B).getD p d = B.getD (p - A.length) d := by
  induction A generalizing p with
  | nil => simp
  | cons a A ih =>
      cases p with
      | zero => simp at h
      | succ p =>
          simp only [List.cons_append, List.getD_cons_succ]
          rw [ih p (by simpa using h)]
          have e : p + 1 - (a :: A).length = p - A.length := by
            simp only [List.length_cons]
            omega
          rw [e]

theorem pairwise_le_getD (l : List Int) (hp : l.Pairwise (· ≤ ·)) (i : Nat)
    (h : i + 1 < l.length) : l.getD i 0 ≤ l.getD (i + 1) 0 := by
  have h1 : i < l.length := by omega
  rw [List.getD_eq_getElem l 0 h1, List.getD_eq_getElem l 0 h]
  have h2 := List.pairwise_iff_get.1 hp ⟨i, h1⟩ ⟨i + 1, h⟩ (by simp)
  simpa using h2

/-
Claim theorems.
-/

/-- Claim C1, amended: mergeInsertSortVector returns a permutation of its
input for every list that avoids the straggler sentinel collision, that is
whenever it is not the case that the length is odd and above 10 with the
last element equal to -1.  Every validated program input, being a list of
positive integers, satisfies the hypothesis.  The claim as frozen, over all
lists of 32-bit integers, fails at C1_counterexample. -/
theorem C1_sort_perm_amended (arr : List Int)
    (h : 10 < arr.length → arr.length % 2 = 1 → arr.getD (arr.length - 1) 0 ≠ -1) :
    (Ex02.mergeInsertSortVector arr).Perm arr :=
  sortVector_perm arr h

theorem C1_sort_perm_witness :
    (Ex02.mergeInsertSortVector [11, 10, 9, 8, 7, 6, 5, 4, 3, 2, 1]).Perm
      [11, 10, 9, 8, 7, 6, 5, 4, 3, 2, 1] :=
  C1_sort_perm_amended [11, 10, 9, 8, 7, 6, 5, 4, 3, 2, 1] (by decide)

/-- Counterexample to claim C1 as stated: on the 11-element list of 32-bit
integers 1..10, -1 the sorter drops the trailing -1, so the output is not a
permutation of the input. -/
theorem C1_counterexample :
    ¬ (Ex02.mergeInsertSortVector [1, 2, 3, 4, 5, 6, 7, 8, 9, 10, -1]).Perm
      [1, 2, 3, 4, 5, 6, 7, 8, 9, 10, -1] := by decide

/-- Claim C2: the output of mergeInsertSortVector is ascending: each output
position is at most the next one. -/
theorem C2_sort_ascending (arr : List Int) (i : Nat)
    (h : i + 1 < (Ex02.mergeInsertSortVector arr).length) :
    (Ex02.mergeInsertSortVector arr).getD i 0 ≤
      (Ex02.mergeInsertSortVector arr).getD (i + 1) 0 :=
  pairwise_le_getD (Ex02.mergeInsertSortVector arr) (sortVector_sorted arr) i h

theorem C2_sort_ascending_witness :
    (Ex02.mergeInsertSortVector [3, 5, 9, 7, 4]).getD 0 0 ≤
      (Ex02.mergeInsertSortVector [3, 5, 9, 7, 4]).getD 1 0 :=
  C2_sort_ascending [3, 5, 9, 7, 4] 0 (by decide)

/-- Claim C3: for odd length above 10 with last element -1, the straggler is
read into the sentinel variable, the final insertion is skipped, and the
output is one element shorter than the input. -/
theorem C3_straggler_dropped (arr : List Int) (h1 : 10 < arr.length)
    (h2 : arr.length % 2 = 1) (h3 : arr.getD (arr.length - 1) 0 = -1) :
    (Ex02.mergeInsertSortVector arr).length = arr.length - 1 := by
  unfold Ex02.mergeInsertSortVector
  rw [if_neg (by omega)]
  exact pairPath_length_drop arr h2 h3

theorem C3_straggler_dropped_witness :
    (Ex02.mergeInsertSortVector [1, 2, 3, 4, 5, 6, 7, 8, 9, 10, -1]).length =
      ([1, 2, 3, 4, 5, 6, 7, 8, 9, 10, -1] : List Int).length - 1 :=
  C3_straggler_dropped [1, 2, 3, 4, 5, 6, 7, 8, 9, 10, -1]
    (by decide) (by decide) (by decide)

/-- Claim C4: for every pendSize at least 1, the insertion order planner
outputs a permutation of the index range [0, pendSize). -/
theorem C4_order_perm (pendSize : Nat) (h : 1 ≤ pendSize) :
    (generateJacobsthalInsertionOrder pendSize).Perm (List.range pendSize) :=
  generateJacobsthalInsertionOrder_perm_range pendSize

theorem C4_order_perm_witness :
    (generateJacobsthalInsertionOrder 5).Perm (List.range 5) :=
  C4_order_perm 5 (by decide)

/-- Claim C5: jacobsthal satisfies the reference recurrence J 0 = 0,
J 1 = 1, J (n+2) = J (n+1) + 2 J n, and its values at 0..10 are
0, 1, 1, 3, 5, 11, 21, 43, 85, 171, 341. -/
theorem C5_jacobsthal_recurrence :
    jacobsthal 0 = 0 ∧ jacobsthal 1 = 1 ∧
      (∀ n : Nat, jacobsthal (n + 2) = jacobsthal (n + 1) + 2 * jacobsthal n) ∧
      (List.range 11).map jacobsthal = [0, 1, 1, 3, 5, 11, 21, 43, 85, 171, 341] := by
  refine ⟨rfl, rfl, ?_, by decide⟩
  intro n
  rw [jacobsthal_eq_jacRef, jacobsthal_eq_jacRef, jacobsthal_eq_jacRef]
  rfl

/-- Claim C6, amended: lists of at most 10 elements delegate to the
insertion sort base case, lists of at most 1 element come back unchanged,
lists of at most 10 elements sort correctly, and a list of length 11 takes
the pairing path and is sorted, with the output a permutation of the input
provided its last element is not -1.  The unamended claim, which asserts
correct sorting for every length-11 list, fails at C6_counterexample. -/
theorem C6_base_case_boundary :
    (∀ arr : List Int, arr.length ≤ 10 →
      Ex02.mergeInsertSortVector arr =
        Ex02.insertionSortVector arr 0 ((arr.length : Int) - 1)) ∧
    (∀ arr : List Int, arr.length ≤ 1 → Ex02.mergeInsertSortVector arr = arr) ∧
    (∀ arr : List Int, arr.length ≤ 10 →
      (Ex02.mergeInsertSortVector arr).Pairwise (· ≤ ·) ∧
        (Ex02.mergeInsertSortVector arr).Perm arr) ∧
    (∀ arr : List Int, arr.length = 11 →
      Ex02.mergeInsertSortVector arr = Ex02.pairPath arr ∧
        (Ex02.mergeInsertSortVector arr).Pairwise (· ≤ ·) ∧
        (arr.getD 10 0 ≠ -1 → (Ex02.mergeInsertSortVector arr).Perm arr)) := by
  refine ⟨?_, ?_, ?_, ?_⟩
  · intro arr h
    unfold Ex02.mergeInsertSortVector
    rw [if_pos h]
  · intro arr h
    match arr with
    | [] => rfl
    | [x] =>
        show Ex02.mergeInsertSortVector [x] = [x]
        unfold Ex02.mergeInsertSortVector
        rw [if_pos (by simp), insertionSortVector_eq_fun]
        rfl
    | x :: y :: rest => simp at h
  · intro arr h
    refine ⟨sortVector_sorted arr, sortVector_perm arr ?_⟩
    intro h10
    omega
  · intro arr h
    refine ⟨?_, sortVector_sorted arr, ?_⟩
    · unfold Ex02.mergeInsertSortVector
      rw [if_neg (by omega)]
    · intro hne
      refine sortVector_perm arr ?_
      intro _ _
      have e : arr.length - 1 = 10 := by omega
      rw [e]
      exact hne

theorem C6_base_case_boundary_witness :
    Ex02.mergeInsertSortVector [9, 8, 7, 6, 5] =
        Ex02.insertionSortVector [9, 8, 7, 6, 5] 0
          ((([9, 8, 7, 6, 5] : List Int).length : Int) - 1) ∧
      (Ex02.mergeInsertSortVector [11, 10, 9, 8, 7, 6, 5, 4, 3, 2, 1]).Perm
        [11, 10, 9, 8, 7, 6, 5, 4, 3, 2, 1] :=
  ⟨C6_base_case_boundary.1 [9, 8, 7, 6, 5] (by decide),
    (C6_base_case_boundary.2.2.2 [11, 10, 9, 8, 7, 6, 5, 4, 3, 2, 1]
      (by decide)).2.2 (by decide)⟩

/-- Counterexample to claim C6 as stated: the length-11 list 2..11, -1 does
not sort correctly — the output is not a permutation of the input. -/
theorem C6_counterexample :
    ¬ (Ex02.mergeInsertSortVector [2, 3, 4, 5, 6, 7, 8, 9, 10, 11, -1]).Perm
      [2, 3, 4, 5, 6, 7, 8, 9, 10, 11, -1] := by decide

/-- Claim C7: the ex02 sorter, which inserts pend elements in the
Jacobsthal order, and the ex02_basic sorter, which inserts them in plain
index order, return the same list on every input. -/
theorem C7_jacobsthal_vs_sequential (arr : List Int) :
    Ex02.mergeInsertSortVector arr = Ex02Basic.mergeInsertSortVector arr :=
  (basic_eq_ex02 arr).symm

/-- Claim C8: the vector-based and the deque-based sorter of ex02 return
exactly the same output sequence on every input. -/
theorem C8_vector_vs_deque (arr : List Int) :
    Ex02.mergeInsertSortDeque arr = Ex02.mergeInsertSortVector arr := rfl

/-- Claim C9, amended: the sorter is idempotent on every input that does not
contain -1; every validated program input qualifies.  The claim as frozen,
over all integer lists, fails at C9_counterexample, where the first sort
moves a -1 into the straggler slot of the second sort. -/
theorem C9_idempotent_amended (arr : List Int) (h : (-1 : Int) ∉ arr) :
    Ex02.mergeInsertSortVector (Ex02.mergeInsertSortVector arr) =
      Ex02.mergeInsertSortVector arr := by
  have h1 := sortVector_perm arr (noNegOne_cond arr h)
  have hmem : (-1 : Int) ∉ Ex02.mergeInsertSortVector arr := fun hm => h (h1.mem_iff.1 hm)
  exact sortedPermEq _ _
    (sortVector_perm (Ex02.mergeInsertSortVector arr) (noNegOne_cond _ hmem))
    (sortVector_sorted (Ex02.mergeInsertSortVector arr)) (sortVector_sorted arr)

theorem C9_idempotent_witness :
    Ex02.mergeInsertSortVector (Ex02.mergeInsertSortVector [3, 5, 9, 7, 4]) =
      Ex02.mergeInsertSortVector [3, 5, 9, 7, 4] :=
  C9_idempotent_amended [3, 5, 9, 7, 4] (by decide)

/-- Counterexample to claim C9 as stated: sorting the 11-element list
-1, -2 x 10 yields ten -2 then -1, whose re-sort drops the -1, so sorting
twice differs from sorting once. -/
theorem C9_counterexample :
    Ex02.mergeInsertSortVector
        (Ex02.mergeInsertSortVector [-1, -2, -2, -2, -2, -2, -2, -2, -2, -2, -2]) ≠
      Ex02.mergeInsertSortVector [-1, -2, -2, -2, -2, -2, -2, -2, -2, -2, -2] := by
  decide

/-- Claim C10: insertionSortVector touches only the subrange [left, right]:
the length is preserved, every position outside the subrange is unchanged,
and the subrange itself becomes an ascending rearrangement of its old
content. -/
theorem C10_frame (arr : List Int) (left right : Int) (h0 : 0 ≤ left)
    (h1 : left ≤ right) (h2 : right < arr.length) :
    (Ex02.insertionSortVector arr left right).length = arr.length ∧
    (∀ p : Nat, p < left.toNat →
      (Ex02.insertionSortVector arr left right).getD p 0 = arr.getD p 0) ∧
    (∀ p : Nat, right.toNat < p →
      (Ex02.insertionSortVector arr left right).getD p 0 = arr.getD p 0) ∧
    (((Ex02.insertionSortVector arr left right).drop left.toNat).take
        ((right - left).toNat + 1)).Pairwise (· ≤ ·) ∧
    (((Ex02.insertionSortVector arr left right).drop left.toNat).take
        ((right - left).toNat + 1)).Perm
      ((arr.drop left.toNat).take ((right - left).toNat + 1)) := by
  have hlt : left.toNat ≤ right.toNat := by omega
  have hrlen : right.toNat < arr.length := by omega
  set lt := left.toNat with hltdef
  set k := (right - left).toNat + 1 with hkdef
  have hk : lt + k = right.toNat + 1 := by omega
  set A := arr.take lt with hA
  set M := (arr.drop lt).take k with hMdef
  set B := arr.drop (lt + k) with hB
  have hAlen : A.length = lt := by
    rw [hA, List.length_take]
    exact Nat.min_eq_left (by omega)
  have hMlen : M.length = k := by
    rw [hMdef, List.length_take, List.length_drop]
    exact Nat.min_eq_left (by omega)
  have hsplit1 : M ++ B = arr.drop lt := by
    rw [hMdef, hB]
    have e : arr.drop (lt + k) = (arr.drop lt).drop k := by
      rw [List.drop_drop]
    rw [e]
    exact List.take_append_drop k (arr.drop lt)
  have hsplit : arr = A ++ M ++ B := by
    rw [List.append_assoc, hsplit1, hA]
    exact (List.take_append_drop lt arr).symm
  have hMne : M ≠ [] := by
    intro hn
    rw [hn] at hMlen
    simp only [List.length_nil] at hMlen
    omega
  obtain ⟨m, M2, hM⟩ := List.exists_cons_of_ne_nil hMne
  have hdecomp := insortVec_decomp_full A M B m M2 hM left right
    (by rw [hAlen]) (by rw [hMlen]; omega)
  rw [← hsplit] at hdecomp
  set S := insertionSortFun (fun x => x) M with hS
  have hSlen : S.length = M.length := (insertionSortFun_perm (fun x => x) M).length_eq
  have hslice : ((Ex02.insertionSortVector arr left right).drop lt).take k = S := by
    rw [hdecomp]
    have e1 : A ++ S ++ B = A ++ (S ++ B) := by simp
    rw [e1, ← hAlen, List.drop_left]
    have e2 : k = S.length := by rw [hSlen, hMlen]
    rw [e2, List.take_left]
  refine ⟨?_, ?_, ?_, ?_, ?_⟩
  · rw [hdecomp]
    conv_rhs => rw [hsplit]
    simp only [List.length_append]
    rw [hSlen]
  · intro p hp
    rw [hdecomp]
    conv_rhs => rw [hsplit]
    have hpA : p < A.length := by rw [hAlen]; exact hp
    have e1 : A ++ S ++ B = A ++ (S ++ B) := by simp
    have e2 : A ++ M ++ B = A ++ (M ++ B) := by simp
    rw [e1, e2, listGetD_append_lt A (S ++ B) p 0 hpA,
      listGetD_append_lt A (M ++ B) p 0 hpA]
  · intro p hp
    rw [hdecomp]
    conv_rhs => rw [hsplit]
    have hpA : (A ++ S).length ≤ p := by
      simp only [List.length_append]
      rw [hAlen, hSlen, hMlen]
      omega
    have hpA2 : (A ++ M).length ≤ p := by
      simp only [List.length_append]
      rw [hAlen, hMlen]
      omega
    rw [listGetD_append_ge (A ++ S) B p 0 hpA, listGetD_append_ge (A ++ M) B p 0 hpA2]
    have e : p - (A ++ S).length = p - (A ++ M).length := by
      simp only [List.length_append]
      rw [hSlen]
    rw [e]
  · rw [hslice]
    exact insertionSortFun_pairwise (fun x => x) M
  · rw [hslice]
    exact insertionSortFun_perm (fun x => x) M

theorem C10_frame_witness :
    (Ex02.insertionSortVector [5, 4, 1, 2] 1 2).length = 4 ∧
    (Ex02.insertionSortVector [5, 4, 1, 2] 1 2).getD 0 0 = 5 ∧
    (Ex02.insertionSortVector [5, 4, 1, 2] 1 2).getD 3 0 = 2 := by
  have h := C10_frame [5, 4, 1, 2] 1 2 (by decide) (by decide) (by decide)
  refine ⟨h.1.trans (by decide), ?_, ?_⟩
  · exact (h.2.1 0 (by decide)).trans (by decide)
  · exact (h.2.2.1 3 (by decide)).trans (by decide)

end PmergeMe
